import Mathlib

/-!
Shallow embedding of the Content Deduplication & Incremental-Push Tracking
Engine of the TrendRadar repository, covering
`src/enhanced_duplicate_detector.py` (fingerprint engine and tiered
duplicate detector) and `src/push_history.py` (persistent push-history
store), together with theorems settling the frozen claims about it.

Modelling conventions:
* Python `dict` values are association lists `List (String × β)`;
  assignment `d[k] = v` replaces the value in place when the key exists and
  appends otherwise (`dictInsert`), matching insertion-order semantics.
* Python `set` values over strings are duplicate-free `List String` with
  `setAdd` (add-if-absent); membership order is irrelevant to the code.
* `hashlib.md5(content).hexdigest()` is modelled as the identity on the
  pre-hash content string (`"{normalized_title}|{platform}"` for the
  detector, `"{source_id}:{title}:{url}"` for the history store): equal
  content strings give equal digests, and the code relies on the digest
  being collision-free.
* The regex class `\w` of `re.sub(r'[^\w\s一-鿿]', '', s)` is
  modelled on its ASCII part (alphanumerics and underscore); the CJK
  ideograph range `一-鿿` is modelled exactly.  `str.split()`,
  `str.strip()` and `\s` use the ASCII whitespace characters.
* `datetime.fromisoformat(...).timestamp()` is an abstract parameter
  `parse : String → Option Int` (`none` models `ValueError`), and
  `datetime.now()` an abstract `now`; timestamps are integral seconds.
-/

namespace TrendRadar

/-! ### Python dict / set primitives -/

def dictInsert {β : Type} (k : String) (v : β) : List (String × β) → List (String × β)
  | [] => [(k, v)]
  | (k', v') :: rest => if k' = k then (k, v) :: rest else (k', v') :: dictInsert k v rest

def dictFind {β : Type} (k : String) : List (String × β) → Option β
  | [] => none
  | (k', v) :: rest => if k' = k then some v else dictFind k rest

def setAdd (x : String) (l : List String) : List String :=
  if x ∈ l then l else l ++ [x]

/-! ### Fingerprint engine (`_normalize_title`, `_generate_content_hash`,
`_calculate_similarity` of `EnhancedDuplicateDetector`) -/

/-- Python whitespace (`str.split` / `str.strip` / regex `\s`), ASCII part:
space, tab, newline, carriage return, vertical tab, form feed. -/
def isSpacePy (c : Char) : Bool :=
  c.toNat = 32 || c.toNat = 9 || c.toNat = 10 || c.toNat = 13 || c.toNat = 11 || c.toNat = 12

/-- Regex `\w`, ASCII part: alphanumerics and underscore. -/
def isWordChar (c : Char) : Bool :=
  c.isAlphanum || c = '_'

/-- CJK ideograph range `一-鿿` of the regex in `_normalize_title`. -/
def isCJK (c : Char) : Bool :=
  0x4e00 ≤ c.toNat && c.toNat ≤ 0x9fff

/-- A character survives `re.sub(r'[^\w\s一-鿿]', '', s)`. -/
def keepChar (c : Char) : Bool :=
  isWordChar c || isSpacePy c || isCJK c

/-- Accumulator-based worker for `str.split()` (split on whitespace runs,
dropping empty fields); `acc` holds the current word reversed. -/
def splitWsAux : List Char → List Char → List (List Char)
  | acc, [] => if acc.isEmpty then [] else [acc.reverse]
  | acc, c :: cs =>
    if isSpacePy c then
      if acc.isEmpty then splitWsAux [] cs else acc.reverse :: splitWsAux [] cs
    else splitWsAux (c :: acc) cs

/-- Python `title.split()`. -/
def splitWs (l : List Char) : List (List Char) :=
  splitWsAux [] l

/-- Python `" ".join(words)`. -/
def joinSpace : List (List Char) → List Char
  | [] => []
  | [w] => w
  | w :: ws => w ++ ' ' :: joinSpace ws

/-- Python `s.strip()` (default whitespace stripping). -/
def stripChars (l : List Char) : List Char :=
  ((l.dropWhile isSpacePy).reverse.dropWhile isSpacePy).reverse

/-- `EnhancedDuplicateDetector._normalize_title`:
`" ".join(title.split()).lower()`, then removal of characters outside
`[\w\s一-鿿]`, then `.strip()`. -/
def normalizeTitle (s : String) : String :=
  ⟨stripChars (((joinSpace (splitWs s.data)).map Char.toLower).filter keepChar)⟩

/-- `EnhancedDuplicateDetector._generate_content_hash`: md5 over
`f"{normalized_title}|{platform}"`, md5 modelled as the identity. -/
def contentHashD (title platform : String) : String :=
  normalizeTitle title ++ "|" ++ platform

/-- `EnhancedDuplicateDetector._calculate_similarity`: Jaccard overlap of the
character sets of the two normalized titles, `0.0` when either normalized
title is empty. -/
def calcSimilarity (title1 title2 : String) : ℚ :=
  let norm1 := normalizeTitle title1
  let norm2 := normalizeTitle title2
  if norm1 = "" || norm2 = "" then 0
  else
    let set1 := norm1.data.toFinset
    let set2 := norm2.data.toFinset
    let inter := set1 ∩ set2
    let uni := set1 ∪ set2
    if uni = ∅ then 0 else (inter.card : ℚ) / (uni.card : ℚ)

/-! ### Tiered duplicate detector (`EnhancedDuplicateDetector`) -/

/-- `DuplicateRecord` dataclass. -/
structure DuplicateRecord where
  originalTitle : String
  originalPlatform : String
  duplicateTitle : String
  duplicatePlatform : String
  similarityScore : ℚ
  hashMatch : Bool
  detectionTime : String
deriving DecidableEq

/-- `DuplicateStats` dataclass. -/
structure DuplicateStats where
  totalProcessed : Nat
  totalDuplicates : Nat
  uniqueContent : Nat
  platformDuplicates : List (String × Nat)
  crossPlatformDuplicates : Nat
  hashBasedDuplicates : Nat
  similarityBasedDuplicates : Nat
  duplicateRecords : List DuplicateRecord
deriving DecidableEq

/-- Mutable fields of an `EnhancedDuplicateDetector` instance other than the
`enable_similarity_check` flag, which is passed explicitly below. -/
structure DetState where
  seenHashes : List String
  seenTitles : List String
  hashMapping : List (String × String × String)
  titleMapping : List (String × String × String)
  stats : DuplicateStats
deriving DecidableEq

def initStats : DuplicateStats :=
  ⟨0, 0, 0, [], 0, 0, 0, []⟩

/-- `EnhancedDuplicateDetector.__init__` (with the mapping dicts that
`add_content` lazily creates already present and empty). -/
def initDetector : DetState :=
  ⟨[], [], [], [], initStats⟩

/-- `dict.get(k, 0)` on `platform_duplicates`. -/
def getCount (k : String) (d : List (String × Nat)) : Nat :=
  (dictFind k d).getD 0

/-- `d[k] = d.get(k, 0) + 1` on `platform_duplicates`. -/
def bump (k : String) (d : List (String × Nat)) : List (String × Nat) :=
  dictInsert k (getCount k d + 1) d

/-- Tier 3 of `_is_duplicate`: scan `_title_mapping` in insertion order for
the first stored original whose similarity with `title` reaches the 0.8
threshold. -/
def findSimilar (title platform now : String) :
    List (String × String × String) → Option DuplicateRecord
  | [] => none
  | (_, orig) :: rest =>
    let sim := calcSimilarity title orig.1
    if (4 : ℚ) / 5 ≤ sim then
      some ⟨orig.1, orig.2, title, platform, sim, false, now⟩
    else findSimilar title platform now rest

/-- `EnhancedDuplicateDetector._is_duplicate`.  `now` stands for
`datetime.now().strftime('%H:%M:%S')`.  Mirrors the code's control flow:
tier 1 falls through to tier 2 when the hash is in `seen_hashes` but absent
from `_hash_mapping`, and likewise for tier 2. -/
def isDuplicate (enableSim : Bool) (st : DetState) (title platform now : String) :
    Option DuplicateRecord :=
  let h := contentHashD title platform
  let nt := normalizeTitle title
  let tier1 : Option DuplicateRecord :=
    if h ∈ st.seenHashes then
      match dictFind h st.hashMapping with
      | some orig => some ⟨orig.1, orig.2, title, platform, 1, true, now⟩
      | none => none
    else none
  match tier1 with
  | some r => some r
  | none =>
    let tier2 : Option DuplicateRecord :=
      if nt ∈ st.seenTitles then
        match dictFind nt st.titleMapping with
        | some orig => some ⟨orig.1, orig.2, title, platform, 1, false, now⟩
        | none => none
      else none
    match tier2 with
    | some r => some r
    | none =>
      if enableSim then findSimilar title platform now st.titleMapping
      else none

/-- `EnhancedDuplicateDetector.add_content` (the `data` argument is never
inspected by the detection logic, so it is omitted).  Returns the boolean
result (`True` = unique) together with the updated state. -/
def addContent (enableSim : Bool) (st : DetState) (title platform now : String) :
    Bool × DetState :=
  let st := { st with stats := { st.stats with totalProcessed := st.stats.totalProcessed + 1 } }
  match isDuplicate enableSim st title platform now with
  | some rec =>
    let stats1 := { st.stats with
      totalDuplicates := st.stats.totalDuplicates + 1,
      duplicateRecords := st.stats.duplicateRecords ++ [rec] }
    let stats2 :=
      if rec.originalPlatform = rec.duplicatePlatform then
        { stats1 with platformDuplicates := bump rec.originalPlatform stats1.platformDuplicates }
      else
        { stats1 with crossPlatformDuplicates := stats1.crossPlatformDuplicates + 1 }
    let stats3 :=
      if rec.hashMatch then
        { stats2 with hashBasedDuplicates := stats2.hashBasedDuplicates + 1 }
      else
        { stats2 with similarityBasedDuplicates := stats2.similarityBasedDuplicates + 1 }
    (false, { st with stats := stats3 })
  | none =>
    let h := contentHashD title platform
    let nt := normalizeTitle title
    (true, { st with
      seenHashes := setAdd h st.seenHashes,
      seenTitles := setAdd nt st.seenTitles,
      hashMapping := dictInsert h (title, platform) st.hashMapping,
      titleMapping := dictInsert nt (title, platform) st.titleMapping,
      stats := { st.stats with uniqueContent := st.stats.uniqueContent + 1 } })

/-- `EnhancedDuplicateDetector.reset_stats`. -/
def resetStats (_st : DetState) : DetState :=
  ⟨[], [], [], [], initStats⟩

/-- One detector API call, for stating reachability over call traces. -/
inductive DetOp where
  | add (title platform now : String)
  | reset

def stepOp (enableSim : Bool) (st : DetState) : DetOp → DetState
  | .add title platform now => (addContent enableSim st title platform now).2
  | .reset => resetStats st

/-- Detector state after a trace of `add_content` / `reset_stats` calls
starting from a fresh instance. -/
def runOps (enableSim : Bool) (ops : List DetOp) : DetState :=
  ops.foldl (stepOp enableSim) initDetector

/-! ### Persistent push-history store (`PushHistory`) -/

/-- One value of the `pushed_items` dict.  `push_time` is optional only to
model arbitrary persisted stores in which the key is missing
(`KeyError` in `cleanup_old_records`); `mark_as_pushed` always sets it. -/
structure PushRecord where
  title : String
  sourceId : String
  url : String
  pushTime : Option String
  hash : String
deriving DecidableEq

/-- The persisted JSON document `{"pushed_items": ..., "last_cleanup": ...}`. -/
structure HistoryState where
  pushedItems : List (String × PushRecord)
  lastCleanup : Option String
deriving DecidableEq

/-- Fresh store as written by `_ensure_history_file`. -/
def initHistory : HistoryState :=
  ⟨[], none⟩

/-- `PushHistory._generate_content_hash`: md5 over
`f"{source_id}:{title}:{url}"`, md5 modelled as the identity. -/
def contentHashP (title sourceId url : String) : String :=
  sourceId ++ ":" ++ title ++ ":" ++ url

/-- `PushHistory.has_been_pushed`. -/
def hasBeenPushed (st : HistoryState) (title sourceId url : String) : Bool :=
  (dictFind (contentHashP title sourceId url) st.pushedItems).isSome

/-- `PushHistory.mark_as_pushed` with an explicit `push_time` (the
`datetime.now().isoformat()` default is always supplied by the caller in
this model). -/
def markAsPushed (st : HistoryState) (title sourceId url pushTime : String) : HistoryState :=
  let h := contentHashP title sourceId url
  { st with pushedItems := dictInsert h ⟨title, sourceId, url, some pushTime, h⟩ st.pushedItems }

/-- One `title_data` payload dict: the `url` field read by
`title_data.get("url", "")` (a missing field is the empty string) and the
rest of the dict, carried opaquely. -/
structure TitleData where
  url : String
  payload : String
deriving DecidableEq

/-- A `{source_id: {title: title_data}}` batch. -/
abbrev Batch : Type := List (String × List (String × TitleData))

/-- `PushHistory.get_new_items`. -/
def getNewItems (st : HistoryState) (allItems : Batch) : Batch :=
  (allItems.map (fun p => (p.1, p.2.filter (fun q => ! hasBeenPushed st q.1 p.1 q.2.url)))).filter
    (fun p => ! p.2.isEmpty)

/-- `PushHistory.mark_items_as_pushed` with an explicit shared `push_time`. -/
def markItemsAsPushed (st : HistoryState) (items : Batch) (pushTime : String) : HistoryState :=
  items.foldl
    (fun acc p => p.2.foldl (fun acc2 q => markAsPushed acc2 q.1 p.1 q.2.url pushTime) acc) st

/-- `PushHistory.cleanup_old_records`.  `parse` models
`datetime.fromisoformat(·).timestamp()` (`none` = `ValueError`), `now` the
current timestamp and `nowIso` its ISO rendering; a record with no
`push_time` key (`KeyError`) or an unparsable one is retained. -/
def cleanupOldRecords (parse : String → Option Int) (now : Int) (nowIso : String)
    (st : HistoryState) (daysToKeep : Int) : HistoryState :=
  let cutoff := now - daysToKeep * 24 * 3600
  { pushedItems := st.pushedItems.filter (fun p =>
      match p.2.pushTime with
      | none => true
      | some s =>
        match parse s with
        | none => true
        | some ts => decide (cutoff ≤ ts)),
    lastCleanup := some nowIso }

/-- A sequence of `mark_as_pushed` calls `(title, source_id, url, push_time)`,
for stating which tuples were ever marked. -/
def markList (st : HistoryState) : List (String × String × String × String) → HistoryState
  | [] => st
  | (t, s, u, pt) :: rest => markList (markAsPushed st t s u pt) rest

/-- The stats invariant maintained by every detector call trace (claim C10):
processed = duplicates + unique, and duplicates are partitioned by detection
tier and matched one-to-one by audit records. -/
def StatsInv (s : DuplicateStats) : Prop :=
  s.totalProcessed = s.totalDuplicates + s.uniqueContent ∧
  s.totalDuplicates = s.hashBasedDuplicates + s.similarityBasedDuplicates ∧
  s.totalDuplicates = s.duplicateRecords.length

/-! ### Association-list and fold lemmas -/

theorem dictFind_insert_self {β : Type} (k : String) (v : β) (d : List (String × β)) :
    dictFind k (dictInsert k v d) = some v := by
  induction d with
  | nil => simp [dictInsert, dictFind]
  | cons p rest ih =>
    by_cases h : p.1 = k
    · simp [dictInsert, dictFind, h]
    · simpa [dictInsert, dictFind, h] using ih

theorem dictFind_insert_ne {β : Type} {k k' : String} (v : β) (d : List (String × β))
    (h : k' ≠ k) : dictFind k' (dictInsert k v d) = dictFind k' d := by
  have h' : ¬k = k' := fun hk => h hk.symm
  induction d with
  | nil => simp [dictInsert, dictFind, h']
  | cons p rest ih =>
    by_cases hp : p.1 = k
    · simp [dictInsert, dictFind, hp, h']
    · simp [dictInsert, dictFind, hp, ih]

theorem dictFind_insert_isSome {β : Type} {k' : String} (k : String) (v : β)
    (d : List (String × β)) (h : (dictFind k' d).isSome) :
    (dictFind k' (dictInsert k v d)).isSome := by
  by_cases hk : k' = k
  · subst hk
    simp [dictFind_insert_self]
  · rwa [dictFind_insert_ne v d hk]

/-- A property preserved by each step of a left fold holds of the result. -/
theorem foldl_pres {α σ : Type} {f : σ → α → σ} {P : σ → Prop}
    (hf : ∀ s a, P s → P (f s a)) :
    ∀ (l : List α) (s : σ), P s → P (l.foldl f s) := by
  intro l
  induction l with
  | nil => intro s hs; simpa using hs
  | cons a l ih => intro s hs; simpa using ih (f s a) (hf s a hs)

/-! ### `mark_as_pushed` / `mark_items_as_pushed` lemmas -/

theorem hasBeenPushed_markAsPushed_self (st : HistoryState) (t s u pt : String) :
    hasBeenPushed (markAsPushed st t s u pt) t s u = true := by
  simp [hasBeenPushed, markAsPushed, dictFind_insert_self]

theorem hasBeenPushed_markAsPushed_mono {st : HistoryState} {a b c : String}
    (t s u pt : String) (h : hasBeenPushed st a b c = true) :
    hasBeenPushed (markAsPushed st t s u pt) a b c = true := by
  simp only [hasBeenPushed, markAsPushed] at h ⊢
  exact dictFind_insert_isSome _ _ _ h

theorem hasBeenPushed_markItemsAsPushed_mono {st : HistoryState} {a b c : String}
    (items : Batch) (pt : String) (h : hasBeenPushed st a b c = true) :
    hasBeenPushed (markItemsAsPushed st items pt) a b c = true := by
  refine foldl_pres (P := fun σ => hasBeenPushed σ a b c = true) ?_ items st h
  intro σ p hσ
  exact foldl_pres (P := fun σ => hasBeenPushed σ a b c = true)
    (fun σ2 q h2 => hasBeenPushed_markAsPushed_mono _ _ _ _ h2) p.2 σ hσ

theorem hasBeenPushed_markItemsAsPushed_of_mem {st : HistoryState}
    {items : Batch} {sid t : String} {td : TitleData} {inner : List (String × TitleData)}
    (pt : String) (hsid : (sid, inner) ∈ items) (ht : (t, td) ∈ inner) :
    hasBeenPushed (markItemsAsPushed st items pt) t sid td.url = true := by
  revert hsid
  induction items generalizing st with
  | nil => intro hsid; cases hsid
  | cons p rest ih =>
    intro hsid
    rcases List.mem_cons.mp hsid with hsid | hsid
    · -- the marked source is the head group: mark it, then stay marked
      subst hsid
      simp only [markItemsAsPushed, List.foldl_cons]
      refine foldl_pres (P := fun σ => hasBeenPushed σ t sid td.url = true) ?_ rest _ ?_
      · intro σ q hσ
        exact foldl_pres (P := fun σ2 => hasBeenPushed σ2 t sid td.url = true)
          (fun σ2 r h2 => hasBeenPushed_markAsPushed_mono _ _ _ _ h2) q.2 σ hσ
      · -- after folding the head group's own titles the entry is present
        clear ih hsid
        revert ht
        induction inner generalizing st with
        | nil => intro ht; cases ht
        | cons q qs ihq =>
          intro ht
          rcases List.mem_cons.mp ht with hq | hq
          · subst hq
            simp only [List.foldl_cons]
            exact foldl_pres (P := fun σ2 => hasBeenPushed σ2 t sid td.url = true)
              (fun σ2 r h2 => hasBeenPushed_markAsPushed_mono _ _ _ _ h2) qs _
              (hasBeenPushed_markAsPushed_self _ _ _ _ _)
          · simp only [List.foldl_cons]
            exact ihq hq
    · simpa only [markItemsAsPushed, List.foldl_cons] using ih hsid

/-! ### `get_new_items` lemmas -/

theorem mem_getNewItems_iff {st : HistoryState} {B : Batch} {sid : String}
    {its : List (String × TitleData)} :
    (sid, its) ∈ getNewItems st B ↔
      ∃ items, (sid, items) ∈ B ∧
        its = items.filter (fun q => ! hasBeenPushed st q.1 sid q.2.url) ∧ its ≠ [] := by
  unfold getNewItems
  constructor
  · intro h
    rcases List.mem_filter.mp h with ⟨hmap, hne⟩
    rcases List.mem_map.mp hmap with ⟨p, hp, he⟩
    rcases p with ⟨sid0, items⟩
    rcases Prod.mk.injEq .. ▸ he with ⟨h1, h2⟩
    subst h1
    refine ⟨items, hp, h2.symm, ?_⟩
    intro hnil
    rw [hnil] at hne
    simp at hne
  · rintro ⟨items, hmem, hfil, hne⟩
    refine List.mem_filter.mpr ⟨List.mem_map.mpr ⟨(sid, items), hmem, ?_⟩, ?_⟩
    · simp [hfil]
    · simpa using hne

/-! ### `mark_as_pushed` sequences (`markList`) lemmas -/

theorem hasBeenPushed_markList_mono {st : HistoryState} {a b c : String}
    (L : List (String × String × String × String))
    (h : hasBeenPushed st a b c = true) :
    hasBeenPushed (markList st L) a b c = true := by
  induction L generalizing st with
  | nil => simpa [markList] using h
  | cons e rest ih =>
    rcases e with ⟨t, s, u, pt⟩
    exact ih (hasBeenPushed_markAsPushed_mono t s u pt h)

theorem hasBeenPushed_markList_of_mem {st : HistoryState}
    {L : List (String × String × String × String)} {t s u pt : String}
    (h : (t, s, u, pt) ∈ L) :
    hasBeenPushed (markList st L) t s u = true := by
  induction L generalizing st with
  | nil => cases h
  | cons e rest ih =>
    rcases List.mem_cons.mp h with he | he
    · rw [← he]
      exact hasBeenPushed_markList_mono rest (hasBeenPushed_markAsPushed_self st t s u pt)
    · rcases e with ⟨t0, s0, u0, pt0⟩
      exact ih he

theorem hasBeenPushed_markList_of_fresh {st : HistoryState}
    {L : List (String × String × String × String)} {t s u : String}
    (hst : hasBeenPushed st t s u = false)
    (h : ∀ e ∈ L, contentHashP t s u ≠ contentHashP e.1 e.2.1 e.2.2.1) :
    hasBeenPushed (markList st L) t s u = false := by
  induction L generalizing st with
  | nil => simpa [markList] using hst
  | cons e rest ih =>
    rcases e with ⟨t0, s0, u0, pt0⟩
    refine ih ?_ (fun e he => h e (List.mem_cons_of_mem _ he))
    have hne := h (t0, s0, u0, pt0) (List.mem_cons_self _ _)
    simp only [hasBeenPushed, markAsPushed] at hst ⊢
    rw [dictFind_insert_ne _ _ hne]
    exact hst

/-! ### Claim theorems about the push-history store -/

/-- C1.  Incremental convergence: for every batch `B`, every store state and
every shared push time, `get_new_items(B)` followed by
`mark_items_as_pushed(result)` makes a second `get_new_items(B)` on the
resulting store return the empty mapping. -/
theorem get_new_items_converges (st : HistoryState) (B : Batch) (pt : String) :
    getNewItems (markItemsAsPushed st (getNewItems st B) pt) B = [] := by
  apply List.eq_nil_iff_forall_not_mem.mpr
  rintro ⟨sid, its⟩ hx
  rcases mem_getNewItems_iff.mp hx with ⟨items, hmem, hfil, hne⟩
  rcases List.exists_mem_of_ne_nil its hne with ⟨q, hq⟩
  rw [hfil] at hq
  rcases List.mem_filter.mp hq with ⟨hin, hkeep⟩
  -- `q` would have to be unpushed after marking, yet every batch entry is
  -- pushed in the marked store
  have hpushed : hasBeenPushed (markItemsAsPushed st (getNewItems st B) pt) q.1 sid q.2.url
      = true := by
    by_cases h0 : hasBeenPushed st q.1 sid q.2.url = true
    · exact hasBeenPushed_markItemsAsPushed_mono _ pt h0
    · have hq' : (q.1, q.2) ∈ items.filter (fun r => ! hasBeenPushed st r.1 sid r.2.url) :=
        List.mem_filter.mpr ⟨hin, by simp [Bool.not_eq_true] at h0 ⊢; exact h0⟩
      have hmem2 : (sid, items.filter (fun r => ! hasBeenPushed st r.1 sid r.2.url)) ∈
          getNewItems st B :=
        mem_getNewItems_iff.mpr ⟨items, hmem, rfl, List.ne_nil_of_mem hq'⟩
      exact hasBeenPushed_markItemsAsPushed_of_mem pt hmem2 hq'
  rw [hpushed] at hkeep
  simp at hkeep

/-- C6.  `get_new_items` characterization: no returned source maps to an
empty group; every returned `(title, payload)` entry comes verbatim from the
batch under the same source key and has a content hash absent from the
store; and conversely every batch entry whose hash is absent from the store
is returned under its source key. -/
theorem get_new_items_exact (st : HistoryState) (B : Batch) :
    (∀ sid its, (sid, its) ∈ getNewItems st B → its ≠ []) ∧
    (∀ sid its t td, (sid, its) ∈ getNewItems st B → (t, td) ∈ its →
      hasBeenPushed st t sid td.url = false ∧ ∃ items, (sid, items) ∈ B ∧ (t, td) ∈ items) ∧
    (∀ sid items t td, (sid, items) ∈ B → (t, td) ∈ items →
      hasBeenPushed st t sid td.url = false →
      ∃ its, (sid, its) ∈ getNewItems st B ∧ (t, td) ∈ its) := by
  refine ⟨?_, ?_, ?_⟩
  · intro sid its h
    exact (mem_getNewItems_iff.mp h).choose_spec.2.2
  · intro sid its t td h ht
    rcases mem_getNewItems_iff.mp h with ⟨items, hmem, hfil, _⟩
    subst hfil
    rcases List.mem_filter.mp ht with ⟨hin, hkeep⟩
    refine ⟨?_, items, hmem, hin⟩
    simpa using hkeep
  · intro sid items t td hmem hin hfresh
    have ht : (t, td) ∈ items.filter (fun r => ! hasBeenPushed st r.1 sid r.2.url) :=
      List.mem_filter.mpr ⟨hin, by simpa using hfresh⟩
    exact ⟨_, mem_getNewItems_iff.mpr ⟨items, hmem, rfl, List.ne_nil_of_mem ht⟩, ht⟩

/-- Closed instance discharging the hypotheses of `get_new_items_exact`. -/
theorem get_new_items_exact_witness :
    ∃ its, ("weibo", its) ∈
        getNewItems initHistory [("weibo", [("新闻A", ⟨"u1", "d"⟩)])] ∧
      ("新闻A", (⟨"u1", "d"⟩ : TitleData)) ∈ its :=
  (get_new_items_exact initHistory [("weibo", [("新闻A", ⟨"u1", "d"⟩)])]).2.2
    "weibo" [("新闻A", ⟨"u1", "d"⟩)] "新闻A" ⟨"u1", "d"⟩ (by decide) (by decide) (by decide)

/-- C2 counterexample: the colon-joined content string does not separate its
three fields, so the distinct tuple `("a", "x:y", "")` is reported as pushed
after only `("y:a", "x", "")` was marked. -/
theorem history_roundtrip_cex :
    hasBeenPushed (markAsPushed initHistory "y:a" "x" "" "pt") "a" "x:y" "" = true ∧
      ("a", "x:y", "") ≠ ("y:a", "x", "") := by
  exact ⟨by decide, by decide⟩

/-- C2 amended.  After any sequence of `mark_as_pushed` calls on a fresh
store, a marked tuple reports as pushed, and a tuple whose colon-joined
content string `source_id:title:url` differs from that of every marked call
reports as not pushed.  (The claim's "different tuple" is weakened to
"different content string": distinct tuples can share one content string,
see `history_roundtrip_cex`.) -/
theorem history_roundtrip_amended (L : List (String × String × String × String))
    (t s u : String) :
    ((∃ pt, (t, s, u, pt) ∈ L) → hasBeenPushed (markList initHistory L) t s u = true) ∧
    ((∀ e ∈ L, contentHashP t s u ≠ contentHashP e.1 e.2.1 e.2.2.1) →
      hasBeenPushed (markList initHistory L) t s u = false) := by
  constructor
  · rintro ⟨pt, hpt⟩
    exact hasBeenPushed_markList_of_mem hpt
  · intro h
    exact hasBeenPushed_markList_of_fresh rfl h

/-- Closed instance discharging the hypotheses of `history_roundtrip_amended`. -/
theorem history_roundtrip_amended_witness :
    hasBeenPushed (markList initHistory [("t1", "s1", "u1", "p1")]) "t1" "s1" "u1" = true ∧
      hasBeenPushed (markList initHistory [("t1", "s1", "u1", "p1")]) "t2" "s1" "u1" = false :=
  ⟨(history_roundtrip_amended [("t1", "s1", "u1", "p1")] "t1" "s1" "u1").1 ⟨"p1", by decide⟩,
   (history_roundtrip_amended [("t1", "s1", "u1", "p1")] "t2" "s1" "u1").2 (by decide)⟩

/-- C7.  Retention: an entry survives `cleanup_old_records` exactly when it
was in the store and its push time, when present and parsable, is at least
`now - days_to_keep` days (so the exact-boundary entry is retained, a
strictly older valid entry is dropped, and a missing or malformed
`push_time` is always retained). -/
theorem cleanup_retention (parse : String → Option Int) (now : Int) (nowIso : String)
    (st : HistoryState) (days : Int) (h : String) (rec : PushRecord) :
    (h, rec) ∈ (cleanupOldRecords parse now nowIso st days).pushedItems ↔
      (h, rec) ∈ st.pushedItems ∧
        ∀ s ts, rec.pushTime = some s → parse s = some ts → now - days * 24 * 3600 ≤ ts := by
  unfold cleanupOldRecords
  rw [List.mem_filter]
  refine and_congr_right fun _ => ?_
  rcases hpt : rec.pushTime with _ | s0
  · simp only [hpt]
    constructor
    · intro _ s ts hs _
      cases hs
    · intro _
      trivial
  · rcases hp : parse s0 with _ | ts0
    · simp only [hpt, hp]
      constructor
      · intro _ s ts hs hts
        cases hs
        rw [hp] at hts
        cases hts
      · intro _
        trivial
    · simp only [hpt, hp]
      constructor
      · intro hdec s ts hs hts
        cases hs
        rw [hp] at hts
        cases hts
        exact of_decide_eq_true hdec
      · intro hall
        exact decide_eq_true (hall s0 ts0 rfl hp)

/-- Closed instance discharging the hypotheses of `cleanup_retention`: an
entry whose timestamp is exactly `days_to_keep` days old is retained. -/
theorem cleanup_retention_witness :
    ("h", (⟨"t", "s", "u", some "time", "h"⟩ : PushRecord)) ∈
      (cleanupOldRecords (fun _ => some 0) 2592000 "iso"
        ⟨[("h", ⟨"t", "s", "u", some "time", "h"⟩)], none⟩ 30).pushedItems :=
  (cleanup_retention (fun _ => some 0) 2592000 "iso"
      ⟨[("h", ⟨"t", "s", "u", some "time", "h"⟩)], none⟩ 30 "h"
      ⟨"t", "s", "u", some "time", "h"⟩).mpr
    ⟨by decide, by
      intro s ts _ hts
      cases hts
      decide⟩

/-! ### `platform_duplicates` counter lemmas -/

theorem getCount_bump_self (k : String) (d : List (String × Nat)) :
    getCount k (bump k d) = getCount k d + 1 := by
  simp [bump, getCount, dictFind_insert_self]

theorem getCount_bump_ne {q k : String} (d : List (String × Nat)) (hq : q ≠ k) :
    getCount q (bump k d) = getCount q d := by
  simp [bump, getCount, dictFind_insert_ne _ _ hq]

/-- `isDuplicate` reads only the seen-sets and mappings, never the stats. -/
theorem isDuplicate_stats_irrel (e : Bool) (sh stl : List String)
    (hm tm : List (String × String × String)) (s1 s2 : DuplicateStats)
    (t p n : String) :
    isDuplicate e ⟨sh, stl, hm, tm, s1⟩ t p n = isDuplicate e ⟨sh, stl, hm, tm, s2⟩ t p n := rfl

/-- C8.  Per-duplicate platform counting: when `add_content` classifies an
item as duplicate with record `rec`, a cross-source duplicate increments
`cross_platform_duplicates` by one leaving `platform_duplicates` untouched,
and a same-source duplicate increments that source's `platform_duplicates`
counter by one (leaving every other counter and
`cross_platform_duplicates` untouched). -/
theorem duplicate_platform_counting (e : Bool) (st : DetState) (t p n : String)
    (rec : DuplicateRecord) (hdup : isDuplicate e st t p n = some rec) :
    (rec.originalPlatform ≠ rec.duplicatePlatform →
      (addContent e st t p n).2.stats.crossPlatformDuplicates =
        st.stats.crossPlatformDuplicates + 1 ∧
      (addContent e st t p n).2.stats.platformDuplicates = st.stats.platformDuplicates) ∧
    (rec.originalPlatform = rec.duplicatePlatform →
      getCount rec.originalPlatform (addContent e st t p n).2.stats.platformDuplicates =
        getCount rec.originalPlatform st.stats.platformDuplicates + 1 ∧
      (∀ q, q ≠ rec.originalPlatform →
        getCount q (addContent e st t p n).2.stats.platformDuplicates =
          getCount q st.stats.platformDuplicates) ∧
      (addContent e st t p n).2.stats.crossPlatformDuplicates =
        st.stats.crossPlatformDuplicates) := by
  rcases st with ⟨sh, stl, hm, tm, stats⟩
  have hdup' : isDuplicate e
      ⟨sh, stl, hm, tm, { stats with totalProcessed := stats.totalProcessed + 1 }⟩ t p n
      = some rec := by
    rw [isDuplicate_stats_irrel e sh stl hm tm _ stats]
    exact hdup
  constructor
  · intro hne
    by_cases hh : rec.hashMatch <;>
      simp [addContent, hdup', hne, hh]
  · intro heq
    refine ⟨?_, ?_, ?_⟩
    · by_cases hh : rec.hashMatch <;>
        simp [addContent, hdup', heq, hh, getCount_bump_self]
    · intro q hq
      have hq2 : q ≠ rec.duplicatePlatform := heq ▸ hq
      by_cases hh : rec.hashMatch <;>
        simp [addContent, hdup', heq, hh, getCount_bump_ne _ hq2]
    · by_cases hh : rec.hashMatch <;>
        simp [addContent, hdup', heq, hh]

/-- Closed instance discharging the hypotheses of
`duplicate_platform_counting` (a cross-platform duplicate). -/
theorem duplicate_platform_counting_witness :
    (addContent true (addContent true initDetector "x" "A" "ta").2 "x" "B"
        "tb").2.stats.crossPlatformDuplicates =
      (addContent true initDetector "x" "A" "ta").2.stats.crossPlatformDuplicates + 1 ∧
    (addContent true (addContent true initDetector "x" "A" "ta").2 "x" "B"
        "tb").2.stats.platformDuplicates =
      (addContent true initDetector "x" "A" "ta").2.stats.platformDuplicates :=
  (duplicate_platform_counting true (addContent true initDetector "x" "A" "ta").2 "x" "B" "tb"
      ⟨"x", "A", "x", "B", 1, false, "tb"⟩ (by decide)).1 (by decide)

/-! ### Detector stats invariant and tier theorems -/

/-- C10.  After any trace of `add_content` / `reset_stats` calls from a
fresh detector, `total_processed = total_duplicates + unique_content`, and
`total_duplicates` equals `hash_based_duplicates +
similarity_based_duplicates` and the length of `duplicate_records`. -/
theorem stats_invariant (e : Bool) (ops : List DetOp) :
    StatsInv (runOps e ops).stats := by
  refine foldl_pres (P := fun st => StatsInv st.stats) ?_ ops initDetector ⟨rfl, rfl, rfl⟩
  intro st op hinv
  obtain ⟨h1, h2, h3⟩ := hinv
  cases op with
  | reset => exact ⟨rfl, rfl, rfl⟩
  | add t p n =>
    show StatsInv (addContent e st t p n).2.stats
    unfold addContent
    rcases hdup : isDuplicate e
        { st with stats := { st.stats with totalProcessed := st.stats.totalProcessed + 1 } }
        t p n with _ | rec
    · simp only [hdup]
      exact ⟨by simp [h1]; omega, h2, h3⟩
    · simp only [hdup]
      by_cases hpl : rec.originalPlatform = rec.duplicatePlatform <;>
        by_cases hh : rec.hashMatch <;>
          refine ⟨?_, ?_, ?_⟩ <;>
            simp [hpl, hh, h1, h2, h3] <;> omega

/-- C4.  Tier-1 exact dedup: feeding the same `(title, source)` twice into a
fresh detector yields unique then duplicate, and the single audit record of
the second call has `hash_match = true` and `similarity_score = 1.0` (its
original and duplicate sides both being the fed pair). -/
theorem tier1_exact_dedup (e : Bool) (t p n1 n2 : String) :
    (addContent e initDetector t p n1).1 = true ∧
    (addContent e (addContent e initDetector t p n1).2 t p n2).1 = false ∧
    (addContent e (addContent e initDetector t p n1).2 t p n2).2.stats.duplicateRecords =
      [⟨t, p, t, p, 1, true, n2⟩] := by
  have h1 : addContent e initDetector t p n1 =
      (true, ⟨[contentHashD t p], [normalizeTitle t],
        [(contentHashD t p, t, p)], [(normalizeTitle t, t, p)],
        ⟨1, 0, 1, [], 0, 0, 0, []⟩⟩) := by
    cases e <;> rfl
  rw [h1]
  have h2 : isDuplicate e
      (⟨[contentHashD t p], [normalizeTitle t], [(contentHashD t p, t, p)],
        [(normalizeTitle t, t, p)], ⟨2, 0, 1, [], 0, 0, 0, []⟩⟩ : DetState) t p n2 =
      some ⟨t, p, t, p, 1, true, n2⟩ := by
    simp [isDuplicate, dictFind]
  refine ⟨rfl, ?_, ?_⟩ <;>
    simp [addContent, h2]

/-- C5.  The title `"网警破获AI换脸非法侵入系统案"` from source `A` followed by
`"  网警破获   AI换脸 非法侵入案  "` from source `B`, or from the same
source `A`, classifies the second item as a duplicate whose audit record has
`hash_match = false` (in the default configuration the match is made by the
tier-3 similarity scan, at score 13/16 ≥ 0.8). -/
theorem tier2_like_whitespace_dedup :
    (addContent true
        (addContent true initDetector "网警破获AI换脸非法侵入系统案" "A" "t1").2
        "  网警破获   AI换脸 非法侵入案  " "B" "t2").1 = false ∧
    ((addContent true
        (addContent true initDetector "网警破获AI换脸非法侵入系统案" "A" "t1").2
        "  网警破获   AI换脸 非法侵入案  " "B" "t2").2.stats.duplicateRecords.map
          DuplicateRecord.hashMatch) = [false] ∧
    (addContent true
        (addContent true initDetector "网警破获AI换脸非法侵入系统案" "A" "t1").2
        "  网警破获   AI换脸 非法侵入案  " "A" "t2").1 = false ∧
    ((addContent true
        (addContent true initDetector "网警破获AI换脸非法侵入系统案" "A" "t1").2
        "  网警破获   AI换脸 非法侵入案  " "A" "t2").2.stats.duplicateRecords.map
          DuplicateRecord.hashMatch) = [false] := by
  with_unfolding_all exact of_decide_eq_true rfl

/-! ### Empty-title behaviour -/

theorem calcSimilarity_empty_left (t1 t2 : String) (h : normalizeTitle t1 = "") :
    calcSimilarity t1 t2 = 0 := by
  simp [calcSimilarity, h]

theorem findSimilar_none_of_empty (t p n : String) (h : normalizeTitle t = "") :
    ∀ m : List (String × String × String), findSimilar t p n m = none := by
  intro m
  induction m with
  | nil => rfl
  | cons q rest ih =>
    have hsim : calcSimilarity t q.2.1 = 0 := calcSimilarity_empty_left _ _ h
    simp only [findSimilar, hsim]
    rw [if_neg (by norm_num)]
    exact ih

/-- C3 counterexample: two empty-title items from two different sources are
classified unique then duplicate — the second one is rejected through the
normalized-title tier even though its exact hash (which includes the
source) was never seen. -/
theorem empty_title_cex :
    (addContent true (addContent true initDetector "" "A" "t1").2 "" "B" "t2").1 = false ∧
      contentHashD "" "B" ∉ ((addContent true initDetector "" "A" "t1").2).seenHashes := by
  exact ⟨by decide, by decide⟩

/-- C3 amended.  An item whose title normalizes to the empty string is
classified a duplicate only when its exact hash was already seen or the
empty normalized title was already seen (any prior empty-title item, from
any source); the similarity tier never fires for it.  (The claim's
"only when its exact hash was seen" omits the normalized-title tier, see
`empty_title_cex`.) -/
theorem empty_title_amended (e : Bool) (st : DetState) (t p n : String)
    (ht : normalizeTitle t = "")
    (hd : (isDuplicate e st t p n).isSome = true) :
    contentHashD t p ∈ st.seenHashes ∨ "" ∈ st.seenTitles := by
  by_cases h1 : contentHashD t p ∈ st.seenHashes
  · exact Or.inl h1
  · by_cases h2 : normalizeTitle t ∈ st.seenTitles
    · rw [ht] at h2
      exact Or.inr h2
    · exfalso
      simp [isDuplicate, h1, h2, findSimilar_none_of_empty t p n ht] at hd

/-- Closed instance discharging the hypotheses of `empty_title_amended`. -/
theorem empty_title_amended_witness :
    contentHashD "" "A" ∈ ((addContent true initDetector "" "A" "t1").2).seenHashes ∨
      "" ∈ ((addContent true initDetector "" "A" "t1").2).seenTitles :=
  empty_title_amended true (addContent true initDetector "" "A" "t1").2 "" "A" "t2"
    (by decide) (by decide)

/-! ### Character lemmas for normalization -/

theorem toNat_toLower_upper {c : Char} (h : 65 ≤ c.toNat ∧ c.toNat ≤ 90) :
    (Char.toLower c).toNat = c.toNat + 32 := by
  unfold Char.toLower
  rw [if_pos h]
  have hv : Nat.isValidChar (c.toNat + 32) := Or.inl (by omega)
  unfold Char.ofNat
  rw [dif_pos hv]
  rfl

theorem toLower_eq_self {c : Char} (h : ¬(65 ≤ c.toNat ∧ c.toNat ≤ 90)) :
    Char.toLower c = c := by
  unfold Char.toLower
  exact if_neg h

theorem toLower_idem (c : Char) :
    Char.toLower (Char.toLower c) = Char.toLower c := by
  by_cases h : 65 ≤ c.toNat ∧ c.toNat ≤ 90
  · have hn := toNat_toLower_upper h
    exact toLower_eq_self (by omega)
  · rw [toLower_eq_self h]
    exact toLower_eq_self h

theorem isSpacePy_toLower (c : Char) :
    isSpacePy (Char.toLower c) = isSpacePy c := by
  by_cases h : 65 ≤ c.toNat ∧ c.toNat ≤ 90
  · have hn := toNat_toLower_upper h
    have hL : isSpacePy (Char.toLower c) = false := by
      simp only [isSpacePy, Bool.or_eq_false_iff, decide_eq_false_iff_not, hn]
      omega
    have hR : isSpacePy c = false := by
      simp only [isSpacePy, Bool.or_eq_false_iff, decide_eq_false_iff_not]
      omega
    rw [hL, hR]
  · rw [toLower_eq_self h]

theorem keepChar_space : keepChar ' ' = true := by decide

theorem toLower_space : Char.toLower ' ' = ' ' := by decide

/-! ### `splitWs` soundness -/

theorem splitWsAux_sound :
    ∀ (l acc : List Char), (∀ c ∈ acc, isSpacePy c = false) →
      ∀ w ∈ splitWsAux acc l,
        w ≠ [] ∧ ∀ c ∈ w, isSpacePy c = false ∧ (c ∈ acc ∨ c ∈ l) := by
  intro l
  induction l with
  | nil =>
    intro acc hacc w hw
    by_cases ha : acc.isEmpty
    · rw [splitWsAux, if_pos ha] at hw
      cases hw
    · rw [splitWsAux, if_neg ha] at hw
      rcases List.mem_singleton.mp hw with rfl
      refine ⟨?_, ?_⟩
      · simp only [ne_eq, List.reverse_eq_nil_iff]
        intro hnil
        rw [hnil] at ha
        exact ha rfl
      · intro c hc
        exact ⟨hacc c (List.mem_reverse.mp hc), Or.inl (List.mem_reverse.mp hc)⟩
  | cons d cs ih =>
    intro acc hacc w hw
    by_cases hd : isSpacePy d
    · by_cases ha : acc.isEmpty
      · rw [splitWsAux, if_pos hd, if_pos ha] at hw
        rcases ih [] (by intro c hc; cases hc) w hw with ⟨hne, hall⟩
        refine ⟨hne, fun c hc => ⟨(hall c hc).1, ?_⟩⟩
        rcases (hall c hc).2 with h0 | h0
        · cases h0
        · exact Or.inr (List.mem_cons_of_mem _ h0)
      · rw [splitWsAux, if_pos hd, if_neg ha] at hw
        rcases List.mem_cons.mp hw with rfl | hw2
        · refine ⟨?_, ?_⟩
          · simp only [ne_eq, List.reverse_eq_nil_iff]
            intro hnil
            rw [hnil] at ha
            exact ha rfl
          · intro c hc
            exact ⟨hacc c (List.mem_reverse.mp hc), Or.inl (List.mem_reverse.mp hc)⟩
        · rcases ih [] (by intro c hc; cases hc) w hw2 with ⟨hne, hall⟩
          refine ⟨hne, fun c hc => ⟨(hall c hc).1, ?_⟩⟩
          rcases (hall c hc).2 with h0 | h0
          · cases h0
          · exact Or.inr (List.mem_cons_of_mem _ h0)
    · rw [splitWsAux, if_neg hd] at hw
      have hacc2 : ∀ c ∈ d :: acc, isSpacePy c = false := by
        intro c hc
        rcases List.mem_cons.mp hc with rfl | hc2
        · simpa using hd
        · exact hacc c hc2
      rcases ih (d :: acc) hacc2 w hw with ⟨hne, hall⟩
      refine ⟨hne, fun c hc => ⟨(hall c hc).1, ?_⟩⟩
      rcases (hall c hc).2 with h0 | h0
      · rcases List.mem_cons.mp h0 with rfl | h1
        · exact Or.inr (List.mem_cons_self _ _)
        · exact Or.inl h1
      · exact Or.inr (List.mem_cons_of_mem _ h0)

theorem splitWs_sound (l : List Char) :
    ∀ w ∈ splitWs l, w ≠ [] ∧ ∀ c ∈ w, isSpacePy c = false ∧ c ∈ l := by
  intro w hw
  rcases splitWsAux_sound l [] (by intro c hc; cases hc) w hw with ⟨hne, hall⟩
  refine ⟨hne, fun c hc => ⟨(hall c hc).1, ?_⟩⟩
  rcases (hall c hc).2 with h0 | h0
  · cases h0
  · exact h0

/-! ### `joinSpace` lemmas -/

theorem joinSpace_cons2 (w x : List Char) (ws : List (List Char)) :
    joinSpace (w :: x :: ws) = w ++ ' ' :: joinSpace (x :: ws) := rfl

theorem mem_joinSpace {c : Char} :
    ∀ {ws : List (List Char)}, c ∈ joinSpace ws → c = ' ' ∨ ∃ w ∈ ws, c ∈ w := by
  intro ws
  induction ws with
  | nil => intro h; cases h
  | cons w tail ih =>
    cases tail with
    | nil =>
      intro h
      exact Or.inr ⟨w, List.mem_singleton_self w, h⟩
    | cons x ws2 =>
      intro h
      rw [joinSpace_cons2] at h
      rcases List.mem_append.mp h with h0 | h0
      · exact Or.inr ⟨w, List.mem_cons_self _ _, h0⟩
      · rcases List.mem_cons.mp h0 with rfl | h1
        · exact Or.inl rfl
        · rcases ih h1 with h2 | ⟨w2, hw2, hc2⟩
          · exact Or.inl h2
          · exact Or.inr ⟨w2, List.mem_cons_of_mem _ hw2, hc2⟩

theorem map_joinSpace (f : Char → Char) (hf : f ' ' = ' ') :
    ∀ ws : List (List Char), (joinSpace ws).map f = joinSpace (ws.map (List.map f)) := by
  intro ws
  induction ws with
  | nil => rfl
  | cons w tail ih =>
    cases tail with
    | nil => rfl
    | cons x ws2 =>
      rw [joinSpace_cons2, List.map_cons, List.map_append, List.map_cons, hf, ih]
      rfl

theorem joinSpace_ne_nil {w : List Char} {tail : List (List Char)} (hw : w ≠ []) :
    joinSpace (w :: tail) ≠ [] := by
  cases tail with
  | nil => exact hw
  | cons x ws2 =>
    rw [joinSpace_cons2]
    rcases w with _ | ⟨a, w2⟩
    · exact absurd rfl hw
    · simp

theorem head?_joinSpace {ws : List (List Char)}
    (h : ∀ w ∈ ws, w ≠ [] ∧ ∀ c ∈ w, isSpacePy c = false) :
    ∀ c, (joinSpace ws).head? = some c → isSpacePy c = false := by
  intro c hc
  cases ws with
  | nil => cases hc
  | cons w tail =>
    rcases h w (List.mem_cons_self _ _) with ⟨hne, hall⟩
    rcases w with _ | ⟨a, w2⟩
    · exact absurd rfl hne
    · cases tail with
      | nil =>
        cases hc
        exact hall _ (List.mem_cons_self _ _)
      | cons x ws2 =>
        rw [joinSpace_cons2, List.cons_append, List.head?_cons] at hc
        cases hc
        exact hall _ (List.mem_cons_self _ _)

theorem getLast?_joinSpace {ws : List (List Char)}
    (h : ∀ w ∈ ws, w ≠ [] ∧ ∀ c ∈ w, isSpacePy c = false) :
    ∀ c, (joinSpace ws).getLast? = some c → isSpacePy c = false := by
  induction ws with
  | nil => intro c hc; cases hc
  | cons w tail ih =>
    intro c hc
    rcases h w (List.mem_cons_self _ _) with ⟨hne, hall⟩
    cases tail with
    | nil =>
      rcases List.mem_getLast?_eq_getLast hc with ⟨h9, rfl⟩
      exact hall _ (List.getLast_mem h9)
    | cons x ws2 =>
      rw [joinSpace_cons2] at hc
      have htail : ∀ w2 ∈ x :: ws2, w2 ≠ [] ∧ ∀ c2 ∈ w2, isSpacePy c2 = false :=
        fun w2 hw2 => h w2 (List.mem_cons_of_mem _ hw2)
      have hnil : joinSpace (x :: ws2) ≠ [] :=
        joinSpace_ne_nil (h x (List.mem_cons_of_mem _ (List.mem_cons_self _ _))).1
      rw [List.getLast?_append_of_ne_nil _ (by simp)] at hc
      rw [show (' ' :: joinSpace (x :: ws2)) = [' '] ++ joinSpace (x :: ws2) from rfl] at hc
      rw [List.getLast?_append_of_ne_nil _ hnil] at hc
      exact ih htail c hc

/-! ### `stripChars` identity on space-free-ended lists -/

theorem dropWhile_eq_self_of_head {p : Char → Bool} {l : List Char}
    (h : ∀ c, l.head? = some c → p c = false) : l.dropWhile p = l := by
  cases l with
  | nil => rfl
  | cons a t =>
    rw [List.dropWhile_cons, h a rfl]
    simp

theorem stripChars_eq_self {l : List Char}
    (h1 : ∀ c, l.head? = some c → isSpacePy c = false)
    (h2 : ∀ c, l.getLast? = some c → isSpacePy c = false) :
    stripChars l = l := by
  unfold stripChars
  rw [dropWhile_eq_self_of_head h1]
  rw [dropWhile_eq_self_of_head (fun c hc => h2 c (by rwa [List.head?_reverse] at hc))]
  exact List.reverse_reverse l

/-! ### `splitWs` / `joinSpace` roundtrip -/

theorem splitWsAux_append_word :
    ∀ (w acc rest : List Char), (∀ c ∈ w, isSpacePy c = false) →
      splitWsAux acc (w ++ rest) = splitWsAux (w.reverse ++ acc) rest := by
  intro w
  induction w with
  | nil => intro acc rest _; simp
  | cons c w2 ih =>
    intro acc rest hw
    have hc : isSpacePy c = false := hw c (List.mem_cons_self _ _)
    rw [List.cons_append, splitWsAux, if_neg (by simp [hc])]
    rw [ih (c :: acc) rest (fun d hd => hw d (List.mem_cons_of_mem _ hd))]
    rw [List.reverse_cons, List.append_assoc]
    rfl

theorem splitWs_joinSpace :
    ∀ ws : List (List Char), (∀ w ∈ ws, w ≠ [] ∧ ∀ c ∈ w, isSpacePy c = false) →
      splitWs (joinSpace ws) = ws := by
  intro ws
  induction ws with
  | nil => intro _; rfl
  | cons w tail ih =>
    intro h
    rcases h w (List.mem_cons_self _ _) with ⟨hne, hall⟩
    cases tail with
    | nil =>
      show splitWsAux [] (joinSpace [w]) = [w]
      have : joinSpace [w] = w ++ [] := by simp [joinSpace]
      rw [this, splitWsAux_append_word w [] [] hall]
      rw [splitWsAux]
      rw [if_neg (by simp [hne])]
      simp
    | cons x ws2 =>
      show splitWsAux [] (joinSpace (w :: x :: ws2)) = w :: x :: ws2
      rw [joinSpace_cons2, splitWsAux_append_word w [] _ hall]
      rw [splitWsAux, if_pos (by decide)]
      rw [if_neg (by simp [hne])]
      rw [List.append_nil, List.reverse_reverse]
      have htail : ∀ w2 ∈ x :: ws2, w2 ≠ [] ∧ ∀ c ∈ w2, isSpacePy c = false :=
        fun w2 hw2 => h w2 (List.mem_cons_of_mem _ hw2)
      rw [show splitWsAux [] (joinSpace (x :: ws2)) = splitWs (joinSpace (x :: ws2)) from rfl]
      rw [ih htail]

/-! ### Normalization fixed point and idempotence -/

theorem map_eq_self_of {α : Type} (f : α → α) :
    ∀ l : List α, (∀ x ∈ l, f x = x) → l.map f = l := by
  intro l
  induction l with
  | nil => intro _; rfl
  | cons a t ih =>
    intro h
    rw [List.map_cons, h a (List.mem_cons_self _ _),
      ih (fun x hx => h x (List.mem_cons_of_mem _ hx))]

/-- A word list all of whose characters are space-free, kept by the filter
and fixed by lowercasing joins to a fixed point of `normalizeTitle`. -/
theorem normalizeTitle_joinSpace_fixed (ws : List (List Char))
    (h : ∀ w ∈ ws, w ≠ [] ∧
      ∀ c ∈ w, isSpacePy c = false ∧ keepChar c = true ∧ Char.toLower c = c) :
    normalizeTitle ⟨joinSpace ws⟩ = ⟨joinSpace ws⟩ := by
  have hprops : ∀ w ∈ ws, w ≠ [] ∧ ∀ c ∈ w, isSpacePy c = false :=
    fun w hw => ⟨(h w hw).1, fun c hc => ((h w hw).2 c hc).1⟩
  unfold normalizeTitle
  rw [show (String.mk (joinSpace ws)).data = joinSpace ws from rfl]
  rw [splitWs_joinSpace ws hprops]
  rw [map_eq_self_of Char.toLower (joinSpace ws) ?hmap]
  case hmap =>
    intro c hc
    rcases mem_joinSpace hc with rfl | ⟨w, hw, hcw⟩
    · exact toLower_space
    · exact ((h w hw).2 c hcw).2.2
  rw [List.filter_eq_self.mpr ?hfil]
  case hfil =>
    intro c hc
    rcases mem_joinSpace hc with rfl | ⟨w, hw, hcw⟩
    · exact keepChar_space
    · exact ((h w hw).2 c hcw).2.1
  rw [stripChars_eq_self (head?_joinSpace hprops) (getLast?_joinSpace hprops)]

theorem lowered_words_props (s : String)
    (hs : ∀ c ∈ s.data, keepChar (Char.toLower c) = true) :
    ∀ w2 ∈ (splitWs s.data).map (List.map Char.toLower),
      w2 ≠ [] ∧ ∀ c ∈ w2, isSpacePy c = false ∧ keepChar c = true ∧ Char.toLower c = c := by
  intro w2 hw2
  rcases List.mem_map.mp hw2 with ⟨w, hw, rfl⟩
  rcases splitWs_sound s.data w hw with ⟨hne, hall⟩
  refine ⟨?_, ?_⟩
  · intro hm
    exact hne (by simpa using hm)
  · intro c hc
    rcases List.mem_map.mp hc with ⟨c0, hc0, rfl⟩
    rcases hall c0 hc0 with ⟨hsp, hmem⟩
    exact ⟨by rw [isSpacePy_toLower]; exact hsp, hs c0 hmem, toLower_idem c0⟩

/-- On titles without removable characters, `_normalize_title` is join of
the lowercased whitespace-split words. -/
theorem normalizeTitle_eq_joinSpace (s : String)
    (hs : ∀ c ∈ s.data, keepChar (Char.toLower c) = true) :
    normalizeTitle s = ⟨joinSpace ((splitWs s.data).map (List.map Char.toLower))⟩ := by
  have hL := lowered_words_props s hs
  have hprops : ∀ w ∈ (splitWs s.data).map (List.map Char.toLower),
      w ≠ [] ∧ ∀ c ∈ w, isSpacePy c = false :=
    fun w hw => ⟨(hL w hw).1, fun c hc => ((hL w hw).2 c hc).1⟩
  have hkeep : ∀ c ∈ joinSpace ((splitWs s.data).map (List.map Char.toLower)),
      keepChar c = true := by
    intro c hc
    rcases mem_joinSpace hc with rfl | ⟨w, hw, hcw⟩
    · exact keepChar_space
    · exact ((hL w hw).2 c hcw).2.1
  unfold normalizeTitle
  rw [map_joinSpace Char.toLower toLower_space]
  rw [List.filter_eq_self.mpr hkeep]
  rw [stripChars_eq_self (head?_joinSpace hprops) (getLast?_joinSpace hprops)]

/-- C9 counterexample: normalization is not idempotent — removing a
punctuation word leaves a double space that only a second pass collapses. -/
theorem normalize_idem_cex :
    normalizeTitle (normalizeTitle "a ! b") ≠ normalizeTitle "a ! b" := by decide

/-- C9 amended.  `_normalize_title` is idempotent on every title none of
whose characters is removed by the punctuation-stripping step (each
lowercased character is a word character, whitespace, or a CJK ideograph).
In general a removed character can leave a double space behind
(`normalize_idem_cex`), which a second pass collapses. -/
theorem normalize_idempotent_amended (s : String)
    (hs : ∀ c ∈ s.data, keepChar (Char.toLower c) = true) :
    normalizeTitle (normalizeTitle s) = normalizeTitle s := by
  rw [normalizeTitle_eq_joinSpace s hs]
  exact normalizeTitle_joinSpace_fixed _ (lowered_words_props s hs)

/-- Closed instance discharging the hypothesis of
`normalize_idempotent_amended`. -/
theorem normalize_idempotent_amended_witness :
    normalizeTitle (normalizeTitle "Ab c") = normalizeTitle "Ab c" :=
  normalize_idempotent_amended "Ab c" (by decide)

end TrendRadar
